/-
Verification of the cmlkit hyperparameter-tuning orchestrator.

This file gives a shallow embedding, in Lean 4, of the parts of the
repository that the verified properties talk about:

* `src/property_converter.py` — the unit-conversion function `convert`.
* `src/cmlkit/engine/caching.py` — the in-memory LRU memoization wrapper
  `memcached`.
* `src/cmlkit/tune/run/run.py` — the `Run` component: construction
  (`__init__`), preparation (`prepare`), the main control loop (`run`)
  and the final result writing (`write_results`).

Python floats are modelled as rationals (`ℚ`) where arithmetic matters and
as integers (`ℤ`) for clock values; machine wall-clock time is modelled as
an abstract monotone counter advanced by a schedule oracle.  Fallible
Python code (exceptions, assertions) is modelled with `Except`.  Components
of the repository that are referenced by `run.py` but whose source is not
part of the provided tree (`State`, `ResultDB`, the stoppers, the
evaluation pool, `humanize`) are modelled from the specification document;
each such definition carries a doc comment saying so.
-/

import Mathlib

/-! ## Part 1: `src/property_converter.py` -/

/-- The exceptions `convert` can raise: the two
`Exception("Can" + chr(39) + "t convert %s to %s")` sites, the `assert` statements on
`data.p`, and the final `Exception(data.name)` for non-kaggle families. -/
inductive ConvertError where
  | cantConvert (origin target : String)
  | assertionFailed (key : String)
  | familyError (name : String)
deriving DecidableEq, Repr

/-- The slice of a data object that `convert` reads: `data.family`,
`data.name`, and the parameter mapping `data.p` (membership of a key is
modelled by `Option`). -/
structure PCData where
  family : String
  name : String
  p : String → Option ℚ

/-- Shallow embedding of `convert(data, prop, origin, target)` from
`src/property_converter.py`.  The three `if origin == ...` statements in
the Python source each `return`, so the chain is embedded as nested
`if`-expressions; the dangling `else` of the source belongs to the
`origin == "fepa"` test, exactly as embedded here. -/
def convert (data : PCData) (prop : ℚ) (origin target : String) :
    Except ConvertError ℚ :=
  if origin = target then
    .ok prop
  else
    if data.family = "kaggle" then
      if target = "fe" then
        if origin = "fec" then
          match data.p "n_atoms" with
          | none => .error (.assertionFailed "n_atoms")
          | some n => .ok (prop / n)
        else if origin = "fecreal" then
          match data.p "n_sub" with
          | none => .error (.assertionFailed "n_sub")
          | some n => .ok (prop / n)
        else if origin = "fepa" then
          match data.p "n_atoms" with
          | none => .error (.assertionFailed "n_atoms")
          | some na =>
            match data.p "n_sub" with
            | none => .error (.assertionFailed "n_sub")
            | some ns => .ok (prop * na / ns)
        else
          .error (.cantConvert origin target)
      else if target = "fsb" then
        .ok prop
      else
        .error (.cantConvert origin target)
    else
      .error (.familyError data.name)

/-! ## Part 2: `Run.__init__`, `Run.prepare`, the ready flag and the name
(`src/cmlkit/tune/run/run.py`, lines 49-112) -/

/-- Modelled from the spec: `cmlkit.utility.humanize` (not in the provided
tree) auto-generates a human-readable name from the unique id of the run
(`humanize(self.id, words=2)`). -/
def humanize (id : Nat) : String :=
  "two-words-" ++ toString id

/-- The slice of the `Run` object state the construction/preparation
claims are about.  A Python attribute that has never been assigned does
not exist on the object (reading it raises `AttributeError`); attribute
presence is modelled with `Option`. -/
structure Run where
  id : Nat
  name : Option String
  ready : Bool
deriving DecidableEq, Repr

/-- Shallow embedding of `Run.__init__` (lines 49-72): `self.id` is a
fresh hash (taken as a parameter), the name is assigned only in the
`if name is None:` branch — the source has no `else` branch, so a
caller-supplied name is never stored — and `self.ready = False`. -/
def Run.init (id : Nat) (name : Option String) : Run :=
  { id := id
    name := match name with
            | none => some (humanize id)
            | some _ => none
    ready := false }

/-- Errors that `Run.prepare` / `Run.run` can raise in the modelled slice:
reading the never-assigned `self.name` attribute
(`f-string run_\x7bself.name\x7d`, line 85), and the
`assert self.ready` at the top of `run` (line 112). -/
inductive RunError where
  | attributeErrorName
  | assertionNotReady
deriving DecidableEq, Repr

/-- Shallow embedding of the state effects of `Run.prepare` (lines
84-106): it reads `self.name` (line 85, also via `get_config` on line 87),
which raises `AttributeError` when the attribute was never assigned, and
otherwise finishes by setting `self.ready = True`.  The directory and file
it writes are modelled by the returned name. -/
def Run.prepare (r : Run) : Except RunError (Run × String) :=
  match r.name with
  | none => .error .attributeErrorName
  | some n => .ok ({ r with ready := true }, "run_" ++ n)

/-- Shallow embedding of the entry guard of `Run.run` (line 112):
`assert self.ready, "prepare() must be called before starting run."`. -/
def Run.runGuard (r : Run) : Except RunError Unit :=
  if r.ready then .ok () else .error .assertionNotReady

/-! ## Theorems for Part 1 and Part 2 -/

/-- C10: `convert(data, prop, u, u)` returns `prop` unchanged and does not
inspect `data` (the result is the same for every data object); and for
`origin ≠ target`, a data family other than `"kaggle"` always raises an
exception (namely `Exception(data.name)`). -/
theorem convert_same_unit_id_and_nonkaggle_raises
    (data data2 : PCData) (prop : ℚ) (u origin target : String)
    (hot : origin ≠ target) (hf : data.family ≠ "kaggle") :
    convert data prop u u = Except.ok prop ∧
    convert data2 prop u u = convert data prop u u ∧
    convert data prop origin target =
      Except.error (ConvertError.familyError data.name) := by
  refine ⟨by simp [convert], by simp [convert], ?_⟩
  simp [convert, hot, hf]

/-- Witness for C10 at a concrete data object and unit labels. -/
theorem convert_same_unit_id_and_nonkaggle_raises_witness :
    convert ⟨"qm9", "somedata", fun _ => none⟩ 5 "fe" "fe" = Except.ok 5 ∧
    convert ⟨"oqmd", "other", fun _ => some 3⟩ 5 "fe" "fe" =
      convert ⟨"qm9", "somedata", fun _ => none⟩ 5 "fe" "fe" ∧
    convert ⟨"qm9", "somedata", fun _ => none⟩ 5 "fec" "fe" =
      Except.error (ConvertError.familyError "somedata") :=
  convert_same_unit_id_and_nonkaggle_raises
    ⟨"qm9", "somedata", fun _ => none⟩ ⟨"oqmd", "other", fun _ => some 3⟩
    5 "fe" "fec" "fe" (by decide) (by decide)

/-- C6: `run()` on a `Run` that has not been prepared always fails with the
fatal assertion, and once `prepare()` has completed (returned without
raising), `run()` never raises that assertion. -/
theorem run_requires_prepare
    (id : Nat) (name : Option String) (r r' : Run) (dir : String)
    (hp : Run.prepare r = Except.ok (r', dir)) :
    Run.runGuard (Run.init id name) = Except.error RunError.assertionNotReady ∧
    Run.runGuard r' = Except.ok () := by
  constructor
  · simp [Run.init, Run.runGuard]
  · unfold Run.prepare at hp
    cases hname : r.name with
    | none => rw [hname] at hp; exact absurd hp (by simp)
    | some n =>
      rw [hname] at hp
      simp only [Except.ok.injEq, Prod.mk.injEq] at hp
      simp [Run.runGuard, ← hp.1]

/-- Witness for C6: a freshly constructed run fails the guard, a prepared
run passes it. -/
theorem run_requires_prepare_witness :
    Run.runGuard (Run.init 3 none) = Except.error RunError.assertionNotReady ∧
    Run.runGuard ⟨3, some (humanize 3), true⟩ = Except.ok () :=
  run_requires_prepare 3 none (Run.init 3 none)
    ⟨3, some (humanize 3), true⟩ ("run_" ++ humanize 3) (by rfl)

/-- C7 (code bug): constructing a `Run` with an explicit name string does
NOT store that name — `__init__` only assigns `self.name` in the
`if name is None:` branch and has no `else`, so the attribute stays unset
and `prepare` then dies with `AttributeError`; only the auto-generated
branch (absent name) works as claimed. -/
theorem run_init_drops_explicit_name :
    (Run.init 0 (some "myrun")).name ≠ some "myrun" ∧
    (Run.init 0 (some "myrun")).name = none ∧
    Run.prepare (Run.init 0 (some "myrun")) =
      Except.error RunError.attributeErrorName ∧
    (Run.init 7 none).name = some (humanize 7) := by
  refine ⟨by simp [Run.init], rfl, rfl, rfl⟩

/-! ## Part 3: `src/cmlkit/engine/caching.py` — the `memcached` wrapper -/

/-- One entry of `memcached.cache`: the dict maps a hash key to the mutable
pair `[recency counter, value]`; dict insertion order is preserved, so the
cache is embedded as a list of entries in insertion order. -/
structure CacheEntry (κ β : Type) where
  key : κ
  counter : Nat
  val : β
deriving DecidableEq

/-- The state of a `memcached` object (`memcached.__init__`): the wrapped
function `f`, `max_entries`, the cache, the recency counter `lruc`, and the
hit/miss statistics.  (`self.hashf` is assigned `None` and never used by
`__call__`, which calls the global `fast_hash`; it is omitted.) -/
structure Memcached (α κ β : Type) where
  f : α → β
  maxEntries : Nat
  cache : List (CacheEntry κ β)
  lruc : Nat
  hits : Nat
  misses : Nat
  totalHits : Nat
  totalMisses : Nat

/-- A fresh `memcached f max_entries` object. -/
def Memcached.init (f : α → β) (maxEntries : Nat) : Memcached α κ β :=
  { f := f, maxEntries := maxEntries, cache := [], lruc := 0,
    hits := 0, misses := 0, totalHits := 0, totalMisses := 0 }

/-- The eviction scan of `memcached.__call__` (lines 58-61):
`c, k = self.lruc, key` then
`for k_, v_ in self.cache.items(): if v_[0] < c: c, k = v_[0], k_`,
keeping the first strict minimum of the recency counters. -/
def evictScan (cache : List (CacheEntry κ β)) (c : Nat) (k : κ) : Nat × κ :=
  cache.foldl (fun ck e => if e.counter < ck.1 then (e.counter, e.key) else ck) (c, k)


/-- Shallow embedding of `memcached.__call__`.  `fast_hash` (whose source
is not in the provided tree) is abstracted as the key function `hash`.  On
a hit, `item[0] = self.lruc` mutates the entry in place (its position in
the dict is unchanged, so the map keeps the list order); on a miss the new
entry is appended, and if the cache now exceeds `max_entries`,
`del self.cache[k]` removes the (first) entry whose key the eviction scan
selected.  Returns the value and the new state; `totalMisses` increases
exactly when `f` is invoked. -/
def Memcached.call [DecidableEq κ] (s : Memcached α κ β) (hash : α → κ) (x : α) :
    β × Memcached α κ β :=
  match s.cache.find? (fun e => decide (e.key = hash x)) with
  | some item =>
      (item.val,
       { s with
         totalHits := s.totalHits + 1
         hits := s.hits + 1
         cache := s.cache.map (fun e =>
           if e.key = hash x then { e with counter := s.lruc } else e)
         lruc := s.lruc + 1 })
  | none =>
      (s.f x,
       { s with
         totalMisses := s.totalMisses + 1
         misses := s.misses + 1
         cache :=
           if s.maxEntries < (s.cache ++ [CacheEntry.mk (hash x) s.lruc (s.f x)]).length then
             (s.cache ++ [CacheEntry.mk (hash x) s.lruc (s.f x)]).eraseP
               (fun e => decide (e.key =
                 (evictScan (s.cache ++ [CacheEntry.mk (hash x) s.lruc (s.f x)])
                   (s.lruc + 1) (hash x)).2))
           else s.cache ++ [CacheEntry.mk (hash x) s.lruc (s.f x)]
         lruc := s.lruc + 1 })

/-- A sequence of calls to the same `memcached` object. -/
def Memcached.runSeq [DecidableEq κ] (s : Memcached α κ β) (hash : α → κ) :
    List α → Memcached α κ β
  | [] => s
  | x :: xs => Memcached.runSeq (s.call hash x).2 hash xs

theorem Memcached.call_hit [DecidableEq κ] (s : Memcached α κ β)
    (hash : α → κ) (x : α) (item : CacheEntry κ β)
    (h : s.cache.find? (fun e => decide (e.key = hash x)) = some item) :
    s.call hash x =
      (item.val,
       { s with
         totalHits := s.totalHits + 1
         hits := s.hits + 1
         cache := s.cache.map (fun e =>
           if e.key = hash x then { e with counter := s.lruc } else e)
         lruc := s.lruc + 1 }) := by
  unfold Memcached.call
  rw [h]

theorem Memcached.call_miss [DecidableEq κ] (s : Memcached α κ β)
    (hash : α → κ) (x : α)
    (h : s.cache.find? (fun e => decide (e.key = hash x)) = none) :
    s.call hash x =
      (s.f x,
       { s with
         totalMisses := s.totalMisses + 1
         misses := s.misses + 1
         cache :=
           if s.maxEntries < (s.cache ++ [CacheEntry.mk (hash x) s.lruc (s.f x)]).length then
             (s.cache ++ [CacheEntry.mk (hash x) s.lruc (s.f x)]).eraseP
               (fun e => decide (e.key =
                 (evictScan (s.cache ++ [CacheEntry.mk (hash x) s.lruc (s.f x)])
                   (s.lruc + 1) (hash x)).2))
           else s.cache ++ [CacheEntry.mk (hash x) s.lruc (s.f x)]
         lruc := s.lruc + 1 }) := by
  unfold Memcached.call
  rw [h]

theorem Memcached.call_const [DecidableEq κ] (s : Memcached α κ β)
    (hash : α → κ) (x : α) :
    (s.call hash x).2.f = s.f ∧ (s.call hash x).2.maxEntries = s.maxEntries := by
  cases h : s.cache.find? (fun e => decide (e.key = hash x)) with
  | some item => rw [Memcached.call_hit s hash x item h]; exact ⟨rfl, rfl⟩
  | none => rw [Memcached.call_miss s hash x h]; exact ⟨rfl, rfl⟩

/-- Specification of the eviction scan: it returns its initial accumulator
(and then nothing in the list has a smaller counter), or the first strict
minimum of the list. -/
theorem evictScan_spec (l : List (CacheEntry κ β)) (c : Nat) (k : κ) :
    (evictScan l c k = (c, k) ∧ ∀ e ∈ l, c ≤ e.counter) ∨
    (∃ e ∈ l, evictScan l c k = (e.counter, e.key) ∧ e.counter < c ∧
      ∀ e2 ∈ l, e.counter ≤ e2.counter) := by
  induction l generalizing c k with
  | nil => exact Or.inl ⟨rfl, by simp⟩
  | cons e l ih =>
    simp only [evictScan, List.foldl_cons] at *
    by_cases h : e.counter < c
    · simp only [if_pos h]
      rcases ih e.counter e.key with ⟨heq, hall⟩ | ⟨e', hmem, heq, hlt, hmin⟩
      · refine Or.inr ⟨e, List.mem_cons_self e l, heq, h, ?_⟩
        intro e2 he2
        rcases List.mem_cons.mp he2 with rfl | he2
        · exact Nat.le_refl _
        · exact hall e2 he2
      · refine Or.inr ⟨e', List.mem_cons_of_mem e hmem, heq, Nat.lt_trans hlt h, ?_⟩
        intro e2 he2
        rcases List.mem_cons.mp he2 with rfl | he2
        · exact Nat.le_of_lt hlt
        · exact hmin e2 he2
    · simp only [if_neg h]
      rcases ih c k with ⟨heq, hall⟩ | ⟨e', hmem, heq, hlt, hmin⟩
      · refine Or.inl ⟨heq, ?_⟩
        intro e2 he2
        rcases List.mem_cons.mp he2 with rfl | he2
        · exact Nat.le_of_not_lt h
        · exact hall e2 he2
      · refine Or.inr ⟨e', List.mem_cons_of_mem e hmem, heq, hlt, ?_⟩
        intro e2 he2
        rcases List.mem_cons.mp he2 with rfl | he2
        · exact Nat.le_of_lt (Nat.lt_of_lt_of_le hlt (Nat.le_of_not_lt h))
        · exact hmin e2 he2

/-- The state invariant of a `memcached` object reachable by calls:
the cache never exceeds `max_entries`, every stored recency counter is
below `lruc`, and every stored value is the wrapped function applied to
some argument with the entry's key. -/
def Memcached.Inv (hash : α → κ) (s : Memcached α κ β) : Prop :=
  s.cache.length ≤ s.maxEntries ∧
  (∀ e ∈ s.cache, e.counter < s.lruc) ∧
  (∀ e ∈ s.cache, ∃ a, e.key = hash a ∧ e.val = s.f a)

/-- A call preserves the `memcached` state invariant. -/
theorem Memcached.call_inv [DecidableEq κ] {s : Memcached α κ β}
    {hash : α → κ} (hinv : s.Inv hash) (x : α) :
    ((s.call hash x).2).Inv hash := by
  obtain ⟨hlen, hctr, hval⟩ := hinv
  cases hfind : s.cache.find? (fun e => decide (e.key = hash x)) with
  | some item =>
    rw [Memcached.call_hit s hash x item hfind]
    refine ⟨by simpa using hlen, ?_, ?_⟩
    · intro e he
      rcases List.mem_map.mp he with ⟨e0, he0, rfl⟩
      by_cases hk : e0.key = hash x
      · simp only [if_pos hk]
        exact Nat.lt_succ_self _
      · simp only [if_neg hk]
        exact Nat.lt_succ_of_lt (hctr e0 he0)
    · intro e he
      rcases List.mem_map.mp he with ⟨e0, he0, rfl⟩
      by_cases hk : e0.key = hash x
      · simp only [if_pos hk]
        exact hval e0 he0
      · simp only [if_neg hk]
        exact hval e0 he0
  | none =>
    rw [Memcached.call_miss s hash x hfind]
    have hmem1 : ∀ e ∈ s.cache ++ [CacheEntry.mk (hash x) s.lruc (s.f x)],
        e.counter < s.lruc + 1 ∧ ∃ a, e.key = hash a ∧ e.val = s.f a := by
      intro e he
      rcases List.mem_append.mp he with he | he
      · exact ⟨Nat.lt_succ_of_lt (hctr e he), hval e he⟩
      · rcases List.mem_singleton.mp he with rfl
        exact ⟨Nat.lt_succ_self _, ⟨x, rfl, rfl⟩⟩
    by_cases hover :
        s.maxEntries < (s.cache ++ [CacheEntry.mk (hash x) s.lruc (s.f x)]).length
    · simp only [if_pos hover]
      refine ⟨?_,
        fun e he => (hmem1 e ((List.eraseP_sublist _).subset he)).1,
        fun e he => (hmem1 e ((List.eraseP_sublist _).subset he)).2⟩
      have hpred : ∃ e ∈ s.cache ++ [CacheEntry.mk (hash x) s.lruc (s.f x)],
          (fun e => decide (e.key =
            (evictScan (s.cache ++ [CacheEntry.mk (hash x) s.lruc (s.f x)])
              (s.lruc + 1) (hash x)).2)) e = true := by
        rcases evictScan_spec (s.cache ++ [CacheEntry.mk (hash x) s.lruc (s.f x)])
            (s.lruc + 1) (hash x) with ⟨heq, _⟩ | ⟨e, hm, heq, _, _⟩
        · exact ⟨CacheEntry.mk (hash x) s.lruc (s.f x), by simp, by simp [heq]⟩
        · exact ⟨e, hm, by simp [heq]⟩
      rcases hpred with ⟨e, hm, hp⟩
      rw [List.length_eraseP_of_mem hm hp]
      simp only [List.length_append, List.length_singleton]
      omega
    · simp only [if_neg hover]
      simp only [List.length_append, List.length_singleton] at hover
      refine ⟨?_, fun e he => (hmem1 e he).1, fun e he => (hmem1 e he).2⟩
      show (s.cache ++ [CacheEntry.mk (hash x) s.lruc (s.f x)]).length ≤ s.maxEntries
      simp only [List.length_append, List.length_singleton]
      omega

theorem Memcached.runSeq_const [DecidableEq κ] (s : Memcached α κ β)
    (hash : α → κ) (xs : List α) :
    (s.runSeq hash xs).f = s.f ∧ (s.runSeq hash xs).maxEntries = s.maxEntries := by
  induction xs generalizing s with
  | nil => exact ⟨rfl, rfl⟩
  | cons x xs ih =>
    have h := Memcached.call_const s hash x
    have h2 := ih (s.call hash x).2
    exact ⟨by rw [Memcached.runSeq, h2.1, h.1], by rw [Memcached.runSeq, h2.2, h.2]⟩

theorem Memcached.runSeq_inv [DecidableEq κ] {s : Memcached α κ β}
    {hash : α → κ} (hinv : s.Inv hash) (xs : List α) :
    (s.runSeq hash xs).Inv hash := by
  induction xs generalizing s with
  | nil => exact hinv
  | cons x xs ih => exact ih (Memcached.call_inv hinv x)

theorem Memcached.init_inv [DecidableEq κ] (f : α → β) (m : Nat) (hash : α → κ) :
    (Memcached.init f m (κ := κ)).Inv hash :=
  ⟨Nat.zero_le _, by simp [Memcached.init], by simp [Memcached.init]⟩

/-- C8: over every sequence of calls to a `memcached`-wrapped function
starting from a fresh wrapper, the cache holds at most `max_entries`
entries; when inserting a new result would exceed that bound, the entry
with the smallest recency counter is the one evicted (the rest of the
cache and the appended new entry are kept); and a cache hit refreshes the
recency counter of the hit entry to the current counter value. -/
theorem memcached_bound_and_lru_eviction [DecidableEq κ] (f : α → β) (hash : α → κ)
    (m : Nat) (xs : List α) (x : α) (s : Memcached α κ β)
    (hs : s = (Memcached.init f m (κ := κ)).runSeq hash xs) :
    s.cache.length ≤ m ∧
    (1 ≤ m → s.cache.length = m → (∀ e ∈ s.cache, e.key ≠ hash x) →
      ∃ e, e ∈ s.cache ∧ (∀ e2 ∈ s.cache, e.counter ≤ e2.counter) ∧
        (s.call hash x).2.cache =
          s.cache.eraseP (fun e2 => decide (e2.key = e.key)) ++
            [CacheEntry.mk (hash x) s.lruc (f x)]) ∧
    (∀ e ∈ s.cache, e.key = hash x →
      ∃ e2 ∈ (s.call hash x).2.cache, e2.key = hash x ∧ e2.counter = s.lruc) := by
  have hconst := Memcached.runSeq_const (Memcached.init f m (κ := κ)) hash xs
  have hf : s.f = f := by rw [hs, hconst.1]; rfl
  have hmax : s.maxEntries = m := by rw [hs, hconst.2]; rfl
  have hinv : s.Inv hash := by
    rw [hs]; exact Memcached.runSeq_inv (Memcached.init_inv f m hash) xs
  obtain ⟨hlen, hctr, hval⟩ := hinv
  refine ⟨by rw [← hmax]; exact hlen, ?_, ?_⟩
  · intro h1m hlenm hfresh
    rw [← hf]
    have hfind : s.cache.find? (fun e => decide (e.key = hash x)) = none := by
      rw [List.find?_eq_none]
      intro e he
      simpa using hfresh e he
    rw [Memcached.call_miss s hash x hfind]
    have hover : s.maxEntries <
        (s.cache ++ [CacheEntry.mk (hash x) s.lruc (s.f x)]).length := by
      simp only [List.length_append, List.length_singleton]
      omega
    rcases evictScan_spec (s.cache ++ [CacheEntry.mk (hash x) s.lruc (s.f x)])
        (s.lruc + 1) (hash x) with ⟨heq, hall⟩ | ⟨e, hmemL, heq, hlt, hmin⟩
    · exfalso
      have hbad : s.lruc + 1 ≤ s.lruc :=
        hall (CacheEntry.mk (hash x) s.lruc (s.f x)) (by simp)
      omega
    · have hes : e ∈ s.cache := by
        rcases List.mem_append.mp hmemL with h | h
        · exact h
        · exfalso
          rcases List.mem_singleton.mp h with rfl
          have hne : s.cache ≠ [] := by
            intro hnil
            rw [hnil] at hlenm
            simp at hlenm
            omega
          obtain ⟨e0, he0⟩ := List.exists_mem_of_ne_nil s.cache hne
          have h1 : s.lruc ≤ e0.counter := hmin e0 (List.mem_append_left _ he0)
          have h2 := hctr e0 he0
          omega
      refine ⟨e, hes, fun e2 he2 => hmin e2 (List.mem_append_left _ he2), ?_⟩
      show (if s.maxEntries <
              (s.cache ++ [CacheEntry.mk (hash x) s.lruc (s.f x)]).length
            then (s.cache ++ [CacheEntry.mk (hash x) s.lruc (s.f x)]).eraseP
              (fun e2 => decide (e2.key =
                (evictScan (s.cache ++ [CacheEntry.mk (hash x) s.lruc (s.f x)])
                  (s.lruc + 1) (hash x)).2))
            else s.cache ++ [CacheEntry.mk (hash x) s.lruc (s.f x)]) =
          s.cache.eraseP (fun e2 => decide (e2.key = e.key)) ++
            [CacheEntry.mk (hash x) s.lruc (s.f x)]
      rw [if_pos hover, heq]
      exact List.eraseP_append_left (by simp) _ hes
  · intro e he hkey
    have hfind : s.cache.find? (fun e2 => decide (e2.key = hash x)) ≠ none := by
      intro hnone
      exact absurd (by simp [hkey] : (fun e2 : CacheEntry κ β =>
          decide (e2.key = hash x)) e = true)
        (List.find?_eq_none.mp hnone e he)
    cases hfind2 : s.cache.find? (fun e2 => decide (e2.key = hash x)) with
    | none => exact absurd hfind2 hfind
    | some item =>
      rw [Memcached.call_hit s hash x item hfind2]
      exact ⟨{ e with counter := s.lruc },
        List.mem_map.mpr ⟨e, he, by rw [if_pos hkey]⟩, hkey, rfl⟩

/-- Witness for C8: wrapping `n ↦ 2 n` with `max_entries = 1` and calling
it on `5` and then on `7` keeps the cache at one entry and evicts the
entry for `5` (the least recently used one). -/
theorem memcached_bound_and_lru_eviction_witness :
    ((Memcached.init (fun n : Nat => n * 2) 1 (κ := Nat)).runSeq (fun n => n)
      [5]).cache.length ≤ 1 ∧
    (∃ e, e ∈ ((Memcached.init (fun n : Nat => n * 2) 1 (κ := Nat)).runSeq
        (fun n => n) [5]).cache ∧
      (∀ e2 ∈ ((Memcached.init (fun n : Nat => n * 2) 1 (κ := Nat)).runSeq
          (fun n => n) [5]).cache, e.counter ≤ e2.counter) ∧
      ((((Memcached.init (fun n : Nat => n * 2) 1 (κ := Nat)).runSeq
          (fun n => n) [5]).call (fun n => n) 7).2.cache =
        ((Memcached.init (fun n : Nat => n * 2) 1 (κ := Nat)).runSeq
          (fun n => n) [5]).cache.eraseP (fun e2 => decide (e2.key = e.key)) ++
          [CacheEntry.mk 7 (((Memcached.init (fun n : Nat => n * 2) 1 (κ := Nat)).runSeq
            (fun n => n) [5]).lruc) 14])) := by
  have h := memcached_bound_and_lru_eviction (fun n : Nat => n * 2) (fun n => n)
    1 [5] 7
    ((Memcached.init (fun n : Nat => n * 2) 1 (κ := Nat)).runSeq (fun n => n) [5]) rfl
  exact ⟨h.1, h.2.1 (by decide) (by decide) (by decide)⟩

/-- C9: the `memcached` wrapper of a deterministic function `f` is
observationally equal to `f` (assuming the hash identifies arguments, as
hashability demands): after any sequence of calls, a further call on `x`
returns `f x`; and when the key of `x` is still cached, the call returns
the stored value and does not invoke `f` (the lifetime miss count, which
counts invocations of `f`, is unchanged). -/
theorem memcached_observational_equiv [DecidableEq κ] (f : α → β) (hash : α → κ)
    (hinj : Function.Injective hash) (m : Nat) (xs : List α) (x : α)
    (s : Memcached α κ β)
    (hs : s = (Memcached.init f m (κ := κ)).runSeq hash xs) :
    (s.call hash x).1 = f x ∧
    ((∃ e ∈ s.cache, e.key = hash x) →
      (s.call hash x).2.totalMisses = s.totalMisses ∧
      ∃ e ∈ s.cache, e.key = hash x ∧ (s.call hash x).1 = e.val) := by
  have hconst := Memcached.runSeq_const (Memcached.init f m (κ := κ)) hash xs
  have hf : s.f = f := by rw [hs, hconst.1]; rfl
  have hinv : s.Inv hash := by
    rw [hs]; exact Memcached.runSeq_inv (Memcached.init_inv f m hash) xs
  obtain ⟨hlen, hctr, hval⟩ := hinv
  constructor
  · cases hfind : s.cache.find? (fun e => decide (e.key = hash x)) with
    | none =>
      rw [Memcached.call_miss s hash x hfind]
      exact hf ▸ rfl
    | some item =>
      rw [Memcached.call_hit s hash x item hfind]
      have hmem := List.mem_of_find?_eq_some hfind
      have hkey : item.key = hash x := by
        have := List.find?_some hfind
        simpa using this
      obtain ⟨a, hka, hva⟩ := hval item hmem
      have hax : a = x := hinj (by rw [← hka, hkey])
      show item.val = f x
      rw [hva, hax, hf]
  · intro ⟨e, he, hkey⟩
    have hfind : s.cache.find? (fun e2 => decide (e2.key = hash x)) ≠ none := by
      intro hnone
      exact absurd (by simp [hkey] : (fun e2 : CacheEntry κ β =>
          decide (e2.key = hash x)) e = true)
        (List.find?_eq_none.mp hnone e he)
    cases hfind2 : s.cache.find? (fun e2 => decide (e2.key = hash x)) with
    | none => exact absurd hfind2 hfind
    | some item =>
      rw [Memcached.call_hit s hash x item hfind2]
      have hmem := List.mem_of_find?_eq_some hfind2
      have hkey2 : item.key = hash x := by
        have := List.find?_some hfind2
        simpa using this
      exact ⟨rfl, item, hmem, hkey2, rfl⟩

/-- Witness for C9: the wrapper of `n ↦ 2 n` returns `10` on `5` after a
warm-up call on `5`, and the second call does not invoke the function. -/
theorem memcached_observational_equiv_witness :
    (((Memcached.init (fun n : Nat => n * 2) 2 (κ := Nat)).runSeq (fun n => n)
      [5]).call (fun n => n) 5).1 = 10 ∧
    (((Memcached.init (fun n : Nat => n * 2) 2 (κ := Nat)).runSeq (fun n => n)
      [5]).call (fun n => n) 5).2.totalMisses =
      ((Memcached.init (fun n : Nat => n * 2) 2 (κ := Nat)).runSeq (fun n => n)
        [5]).totalMisses := by
  have h := memcached_observational_equiv (fun n : Nat => n * 2) (fun n => n)
    (fun a b hab => hab) 2 [5] 5
    ((Memcached.init (fun n : Nat => n * 2) 2 (κ := Nat)).runSeq (fun n => n) [5]) rfl
  exact ⟨h.1, (h.2 (by decide)).1⟩

/-! ## Part 4: `Run.write_results` (`src/cmlkit/tune/run/run.py`, lines
150-161), over a ResultDB modelled from the spec -/

/-- One entry of the `ResultDB`, modelled from the spec:
`(TrialID, Configuration, TrialResult, timestamp)`, where the result is
`Success(loss, ...)` (`loss = some l`) or `Failure` (`loss = none`), plus
the optional evaluator-supplied refined loss.  Configurations are opaque
identifiers. -/
structure DBEntry where
  tid : Nat
  config : Nat
  loss : Option Int
  refinedLoss : Option Int
  time : Nat
deriving DecidableEq, Repr

/-- Stable insertion into a sorted list (helper for the spec-modelled
ranking queries). -/
def insertBy (lt : α → α → Bool) (x : α) : List α → List α
  | [] => [x]
  | y :: ys => if lt x y then x :: y :: ys else y :: insertBy lt x ys

/-- Insertion sort (helper for the spec-modelled ranking queries). -/
def sortBy (lt : α → α → Bool) : List α → List α
  | [] => []
  | x :: xs => insertBy lt x (sortBy lt xs)

/-- Ordering key for `top_suggestions`: ascending loss, ties broken by
earliest submission time. -/
def lossKeyLt (a b : DBEntry) : Bool :=
  decide (a.loss.getD 0 < b.loss.getD 0) ||
    (decide (a.loss.getD 0 = b.loss.getD 0) && decide (a.time < b.time))

/-- Ordering key for `top_refined_suggestions`: ascending refined loss,
ties broken by earliest submission time. -/
def refinedKeyLt (a b : DBEntry) : Bool :=
  decide (a.refinedLoss.getD 0 < b.refinedLoss.getD 0) ||
    (decide (a.refinedLoss.getD 0 = b.refinedLoss.getD 0) &&
      decide (a.time < b.time))

/-- Modelled from the spec: `ResultDB.top_suggestions(k=5)` (resultdb.py is
not in the provided tree) returns the `k` configurations with the lowest
recorded loss among Success entries, ties broken by earliest submission
time; fewer than `k` when fewer successes exist. -/
def ResultDB.top_suggestions (db : List DBEntry) (k : Nat := 5) : List Nat :=
  ((sortBy lossKeyLt (db.filter (fun e => e.loss.isSome))).map
    (fun e => e.config)).take k

/-- Modelled from the spec: `ResultDB.top_refined_suggestions` (resultdb.py
is not in the provided tree) is the analogous top-5 query over the
evaluator-supplied refined loss, returning empty configurations (`none`,
the empty dict) in place of trials without refinement data. -/
def ResultDB.top_refined_suggestions (db : List DBEntry) : List (Option Nat) :=
  ((sortBy refinedKeyLt (db.filter (fun e => e.refinedLoss.isSome))).map
    (fun e => some e.config)).take 5 ++
  List.replicate
    (5 - ((sortBy refinedKeyLt (db.filter (fun e => e.refinedLoss.isSome))).map
      (fun e => some e.config)).length) none

/-- The files `write_results` writes into the work directory. -/
inductive OutFile where
  | tape
  | suggestion (i : Nat)
  | refinedSuggestion (i : Nat)
deriving DecidableEq, Repr

/-- The values `write_results` serializes. -/
inductive OutValue where
  | tapeData (events : List Nat)
  | config (c : Nat)
deriving DecidableEq, Repr

/-- Shallow embedding of `Run.write_results` (lines 150-161): it saves the
tape, saves `suggestion-i` for the enumeration of
`self.state.evals.top_suggestions()`, and — when any entry of
`top_refined_suggestions()` is non-empty — saves `refined_suggestion-i`,
enumerating `self.state.evals.top_suggestions()` again (exactly as the
source does on line 159: the computed `refined` list is NOT the sequence
being enumerated). -/
def Run.write_results (tape : List Nat) (evals : List DBEntry) :
    List (OutFile × OutValue) :=
  (OutFile.tape, OutValue.tapeData tape) ::
  (ResultDB.top_suggestions evals).enum.map
    (fun p => (OutFile.suggestion p.1, OutValue.config p.2)) ++
  (if (ResultDB.top_refined_suggestions evals).any
      (fun r => decide (r ≠ none)) then
    (ResultDB.top_suggestions evals).enum.map
      (fun p => (OutFile.refinedSuggestion p.1, OutValue.config p.2))
   else [])

/-- C5 (code bug): on a database where the refined-loss ranking differs
from the loss ranking, `write_results` persists the tape and the
`suggestion-i` files as claimed, but the `refined_suggestion-i` files get
the configurations of `top_suggestions()` — NOT the refined ranking
`top_refined_suggestions()` computed on line 157 — because line 159
re-enumerates `top_suggestions()`. -/
theorem write_results_refined_files_use_unrefined_ranking :
    ResultDB.top_refined_suggestions
        [⟨0, 10, some 1, some 5, 0⟩, ⟨1, 20, some 2, some 0, 1⟩] =
      [some 20, some 10, none, none, none] ∧
    (OutFile.tape, OutValue.tapeData []) ∈
      Run.write_results [] [⟨0, 10, some 1, some 5, 0⟩, ⟨1, 20, some 2, some 0, 1⟩] ∧
    (OutFile.suggestion 0, OutValue.config 10) ∈
      Run.write_results [] [⟨0, 10, some 1, some 5, 0⟩, ⟨1, 20, some 2, some 0, 1⟩] ∧
    (OutFile.suggestion 1, OutValue.config 20) ∈
      Run.write_results [] [⟨0, 10, some 1, some 5, 0⟩, ⟨1, 20, some 2, some 0, 1⟩] ∧
    (OutFile.refinedSuggestion 0, OutValue.config 10) ∈
      Run.write_results [] [⟨0, 10, some 1, some 5, 0⟩, ⟨1, 20, some 2, some 0, 1⟩] ∧
    (OutFile.refinedSuggestion 0, OutValue.config 20) ∉
      Run.write_results [] [⟨0, 10, some 1, some 5, 0⟩, ⟨1, 20, some 2, some 0, 1⟩] := by
  decide

/-! ## Part 5: the `Run.run` control loop
(`src/cmlkit/tune/run/run.py`, lines 111-148)

The loop is embedded as a fuel-indexed transition function over an
explicit state.  Abstractions used, each justified by the spec:

* futures: `futures` is a Python dict future ↦ TrialID; `State.suggest`
  (modelled from the spec) hands out fresh, pairwise-distinct TrialIDs
  `0, 1, 2, ...`, and each `pool.schedule` call returns a fresh future, so
  an in-flight future is identified by its TrialID and the dict becomes a
  list of TrialIDs.
* time: `time.monotonic()` advances only during the blocking
  `wait(...)` call; the amount it advances in each iteration is given by a
  schedule oracle (`dt`), as is the set of futures that complete during
  that wait (`completes`) and the `TrialResult` payload that
  `pool.finish` produces for a completed future (`result`, an opaque
  integer payload — modelled from the spec, pool.py is not in the
  provided tree).
* `State.submit` / `ResultDB.add` (modelled from the spec) append the
  `(TrialID, TrialResult)` pair to the database; the claims about
  exactly-once recording are then genuine theorems about the loop
  protocol rather than consequences of a modelled guard.
* the status/log writes of the loop body touch no loop state and are
  omitted. -/

/-- The context keys `Run.run` reads (`default_context`, lines 43-47). -/
structure RunContext where
  maxWorkers : Nat
  shutdownDuration : Int
  waitPerLoop : Int
deriving DecidableEq, Repr

/-- The schedule oracle: which in-flight trials complete during the wait
of a given iteration, what result a completed trial resolves to, and how
far the monotonic clock advances during the wait. -/
structure LoopSched where
  completes : Nat → Nat → Bool
  result : Nat → Int
  dt : Nat → Int

/-- Modelled from the spec: a `Stopper` (stopping.py is not in the
provided tree) is a pure predicate over the accumulated state, reading the
result database and the ambient clock. -/
structure Stopper where
  done : List (Nat × Int) → Int → Bool

/-- The loop state of `Run.run`: the futures dict (as in-flight TrialIDs),
the ResultDB contents in submission order, the next fresh TrialID, the
monotonic clock, and the iteration counter (indexing the oracle). -/
structure LoopState where
  futures : List Nat
  db : List (Nat × Int)
  nextTid : Nat
  time : Int
  iter : Nat
deriving DecidableEq, Repr

/-- The `done` set returned by `wait(futures, ...)` in iteration
`s.iter`: the in-flight trials the oracle completes. -/
def waitDone (sched : LoopSched) (s : LoopState) : List Nat :=
  s.futures.filter (fun tid => sched.completes s.iter tid)

/-- The `running` set returned by `wait(futures, ...)`: the in-flight
trials still outstanding after the wait. -/
def waitRunning (sched : LoopSched) (s : LoopState) : List Nat :=
  s.futures.filter (fun tid => !(sched.completes s.iter tid))

/-- `n_new_trials = max(0, max_workers + 1 - len(running))` (line 135);
over `Nat`, truncated subtraction makes `max 0` redundant exactly as the
Python `max(0, ...)` does over ints. -/
def nNewTrials (ctx : RunContext) (runningLen : Nat) : Nat :=
  max 0 (ctx.maxWorkers + 1 - runningLen)

/-- One iteration of the `while` body (lines 120-140): wait (the clock
advances by `dt`, the oracle splits the futures into `done` and
`running`); then, unless the stop condition fired during the wait
(line 128), harvest every completed future (`pool.finish` +
`state.submit` + `del futures[f]`, lines 129-133) and top up with
`n_new_trials` fresh suggestions (lines 135-140).  When the stop
condition did fire, only the clock and the iteration counter move. -/
def Run.loopStep (ctx : RunContext) (sched : LoopSched) (stop : Stopper)
    (s : LoopState) : LoopState :=
  if stop.done s.db (s.time + sched.dt s.iter) then
    { s with time := s.time + sched.dt s.iter, iter := s.iter + 1 }
  else
    { futures := waitRunning sched s ++
        (List.range (nNewTrials ctx (waitRunning sched s).length)).map
          (fun i => s.nextTid + i)
      db := s.db ++ (waitDone sched s).map (fun tid => (tid, sched.result tid))
      nextTid := s.nextTid + nNewTrials ctx (waitRunning sched s).length
      time := s.time + sched.dt s.iter
      iter := s.iter + 1 }

/-- The `while time.monotonic() < end and not self.stop.done(self.state)`
loop (line 119), with fuel bounding the number of iterations. -/
def Run.loop (ctx : RunContext) (sched : LoopSched) (stop : Stopper)
    (endT : Int) : Nat → LoopState → LoopState
  | 0, s => s
  | fuel + 1, s =>
    if s.time < endT ∧ stop.done s.db s.time = false then
      Run.loop ctx sched stop endT fuel (Run.loopStep ctx sched stop s)
    else s

/-- The state at entry of `run(duration)`: no futures, empty database,
fresh TrialIDs from 0, clock at `start`. -/
def Run.initState (start : Int) : LoopState :=
  { futures := [], db := [], nextTid := 0, time := start, iter := 0 }

/-- `run(duration)` (lines 111-141): `end = start + duration -
shutdown_duration`, then the loop from the initial state. -/
def Run.runLoop (ctx : RunContext) (sched : LoopSched) (stop : Stopper)
    (start duration : Int) (fuel : Nat) : LoopState :=
  Run.loop ctx sched stop (start + duration - ctx.shutdownDuration) fuel
    (Run.initState start)

/-- All states the control thread observes at the `while` condition,
in order (the last one is the state the loop exits with). -/
def Run.loopTrace (ctx : RunContext) (sched : LoopSched) (stop : Stopper)
    (endT : Int) : Nat → LoopState → List LoopState
  | 0, s => [s]
  | fuel + 1, s =>
    if s.time < endT ∧ stop.done s.db s.time = false then
      s :: Run.loopTrace ctx sched stop endT fuel (Run.loopStep ctx sched stop s)
    else [s]

/-- The trace of `run(duration)` from its initial state. -/
def Run.runTrace (ctx : RunContext) (sched : LoopSched) (stop : Stopper)
    (start duration : Int) (fuel : Nat) : List LoopState :=
  Run.loopTrace ctx sched stop (start + duration - ctx.shutdownDuration) fuel
    (Run.initState start)

/-- The accounting invariant of the loop: the in-flight TrialIDs together
with the TrialIDs recorded in the database are pairwise distinct, and all
of them were issued by `State.suggest` (are below `nextTid`). -/
def LoopInv (s : LoopState) : Prop :=
  (s.futures ++ s.db.map Prod.fst).Nodup ∧
  ∀ tid ∈ s.futures ++ s.db.map Prod.fst, tid < s.nextTid

/-- List-level core of the harvesting/scheduling step: splitting the
in-flight set by a completion predicate, moving the completed part into
the database, and appending fresh ids keeps the combined id list
duplicate-free and bounded by the new fresh-id counter. -/
theorem sched_nodup (F D : List Nat) (p : Nat → Bool) (n k : Nat)
    (hnd : (F ++ D).Nodup) (hlt : ∀ tid ∈ F ++ D, tid < n) :
    ((F.filter (fun t => !(p t)) ++ (List.range k).map (fun i => n + i)) ++
      (D ++ F.filter p)).Nodup ∧
    ∀ tid ∈ (F.filter (fun t => !(p t)) ++ (List.range k).map (fun i => n + i)) ++
      (D ++ F.filter p), tid < n + k := by
  rcases List.nodup_append.mp hnd with ⟨hF, hD, hFD⟩
  have hltF : ∀ tid ∈ F, tid < n := fun tid h => hlt tid (List.mem_append_left _ h)
  have hltD : ∀ tid ∈ D, tid < n := fun tid h => hlt tid (List.mem_append_right _ h)
  have hfresh : ∀ a ∈ (List.range k).map (fun i => n + i), n ≤ a ∧ a < n + k := by
    intro a ha
    rcases List.mem_map.mp ha with ⟨i, hi, rfl⟩
    exact ⟨Nat.le_add_right _ _, Nat.add_lt_add_left (List.mem_range.mp hi) _⟩
  constructor
  · rw [List.nodup_append]
    refine ⟨?_, ?_, ?_⟩
    · rw [List.nodup_append]
      refine ⟨hF.filter _, ?_, ?_⟩
      · exact (List.nodup_range k).map (fun a b h => Nat.add_left_cancel h)
      · intro a haR haF
        exact absurd (hltF a (List.mem_filter.mp haR).1)
          (Nat.not_lt.mpr (hfresh a haF).1)
    · rw [List.nodup_append]
      refine ⟨hD, hF.filter _, ?_⟩
      · intro a haD haDn
        exact hFD (List.mem_filter.mp haDn).1 haD
    · intro a ha1 ha2
      rcases List.mem_append.mp ha1 with haR | haFr
      · rcases List.mem_append.mp ha2 with haD | haDn
        · exact hFD (List.mem_filter.mp haR).1 haD
        · have h1 := (List.mem_filter.mp haR).2
          have h2 := (List.mem_filter.mp haDn).2
          simp only [Bool.not_eq_true'] at h1
          rw [h1] at h2
          exact Bool.noConfusion h2
      · have hge := (hfresh a haFr).1
        rcases List.mem_append.mp ha2 with haD | haDn
        · exact absurd (hltD a haD) (Nat.not_lt.mpr hge)
        · exact absurd (hltF a (List.mem_filter.mp haDn).1) (Nat.not_lt.mpr hge)
  · intro tid h
    rcases List.mem_append.mp h with h1 | h2
    · rcases List.mem_append.mp h1 with hR | hFr
      · exact Nat.lt_of_lt_of_le (hltF tid (List.mem_filter.mp hR).1)
          (Nat.le_add_right _ _)
      · exact (hfresh tid hFr).2
    · rcases List.mem_append.mp h2 with hD | hDn
      · exact Nat.lt_of_lt_of_le (hltD tid hD) (Nat.le_add_right _ _)
      · exact Nat.lt_of_lt_of_le (hltF tid (List.mem_filter.mp hDn).1)
          (Nat.le_add_right _ _)

/-- One loop iteration preserves the accounting invariant. -/
theorem Run.loopStep_inv (ctx : RunContext) (sched : LoopSched) (stop : Stopper)
    (s : LoopState) (h : LoopInv s) :
    LoopInv (Run.loopStep ctx sched stop s) := by
  obtain ⟨hnd, hlt⟩ := h
  unfold Run.loopStep
  split
  · exact ⟨hnd, hlt⟩
  · have key := sched_nodup s.futures (s.db.map Prod.fst)
      (fun tid => sched.completes s.iter tid)
      s.nextTid (nNewTrials ctx (waitRunning sched s).length) hnd hlt
    have hrw : (s.db ++ (waitDone sched s).map
        (fun tid => (tid, sched.result tid))).map Prod.fst =
        s.db.map Prod.fst ++ waitDone sched s := by
      simp [List.map_map, Function.comp_def]
    constructor
    · show ((waitRunning sched s ++
          (List.range (nNewTrials ctx (waitRunning sched s).length)).map
            (fun i => s.nextTid + i)) ++
        (s.db ++ (waitDone sched s).map
          (fun tid => (tid, sched.result tid))).map Prod.fst).Nodup
      rw [hrw]
      exact key.1
    · show ∀ tid ∈ (waitRunning sched s ++
          (List.range (nNewTrials ctx (waitRunning sched s).length)).map
            (fun i => s.nextTid + i)) ++
        (s.db ++ (waitDone sched s).map
          (fun tid => (tid, sched.result tid))).map Prod.fst,
        tid < s.nextTid + nNewTrials ctx (waitRunning sched s).length
      rw [hrw]
      exact key.2

/-- The loop preserves the accounting invariant for any fuel. -/
theorem Run.loop_inv (ctx : RunContext) (sched : LoopSched) (stop : Stopper)
    (endT : Int) (fuel : Nat) (s : LoopState) (h : LoopInv s) :
    LoopInv (Run.loop ctx sched stop endT fuel s) := by
  induction fuel generalizing s with
  | zero => exact h
  | succ fuel ih =>
    rw [Run.loop]
    split
    · exact ih _ (Run.loopStep_inv ctx sched stop s h)
    · exact h

/-- A context with one worker, no shutdown grace, 5s poll interval. -/
def ctxOneWorker : RunContext := ⟨1, 0, 5⟩

/-- A schedule in which no evaluation ever completes; the clock advances
by 1 per wait. -/
def schedNothingEverCompletes : LoopSched := ⟨fun _ _ => false, fun _ => 0, fun _ => 1⟩

/-- A schedule in which every in-flight evaluation completes during every
wait; the clock advances by 1 per wait. -/
def schedEverythingCompletes : LoopSched := ⟨fun _ _ => true, fun _ => 0, fun _ => 1⟩

/-- A stopper that never fires. -/
def stopNever : Stopper := ⟨fun _ _ => false⟩

/-- A wall-clock stopper that fires as soon as the clock reaches 2. -/
def stopAtTime2 : Stopper := ⟨fun _ t => decide (2 ≤ t)⟩

/-- C1 counterexample: with one worker, two trials scheduled, and the
stopper firing (during the wait of the second iteration) while both
scheduled evaluations have completed but are not yet harvested, the run
exits with `nextTid = 2` trials scheduled but an EMPTY result database:
the completed-but-unharvested trials are never resolved into ResultDB, so
the database does not end with N = 2 entries. -/
theorem run_loses_unharvested_trials_cex :
    (Run.runLoop ctxOneWorker schedEverythingCompletes stopAtTime2 0 1000 5).nextTid = 2 ∧
    (Run.runLoop ctxOneWorker schedEverythingCompletes stopAtTime2 0 1000 5).db = [] ∧
    (Run.runLoop ctxOneWorker schedEverythingCompletes stopAtTime2 0 1000 5).futures = [0, 1] := by
  decide

/-- C1 (amended): in every run, every TrialID recorded in ResultDB is one
that was scheduled (is below the fresh-id counter) and the recorded
TrialIDs are pairwise distinct — each resolved trial is recorded exactly
once; but trials still in flight, or completed and not yet harvested when
the stop condition fires, are never recorded, so the database can end with
fewer entries than trials scheduled. -/
theorem run_resultdb_unique_and_scheduled (ctx : RunContext) (sched : LoopSched)
    (stop : Stopper) (start duration : Int) (fuel : Nat) :
    ((Run.runLoop ctx sched stop start duration fuel).db.map Prod.fst).Nodup ∧
    ∀ tid ∈ (Run.runLoop ctx sched stop start duration fuel).db.map Prod.fst,
      tid < (Run.runLoop ctx sched stop start duration fuel).nextTid := by
  have h := Run.loop_inv ctx sched stop (start + duration - ctx.shutdownDuration)
    fuel (Run.initState start) ⟨by simp [Run.initState], by simp [Run.initState]⟩
  exact ⟨h.1.of_append_right,
    fun tid ht => h.2 tid (List.mem_append_right _ ht)⟩

/-- Witness for C1 (amended) on a concrete two-iteration run that records
two trials. -/
theorem run_resultdb_unique_and_scheduled_witness :
    ((Run.runLoop ctxOneWorker schedEverythingCompletes stopNever 0 1000 2).db.map
      Prod.fst).Nodup ∧
    0 < (Run.runLoop ctxOneWorker schedEverythingCompletes stopNever 0 1000 2).nextTid :=
  ⟨(run_resultdb_unique_and_scheduled ctxOneWorker schedEverythingCompletes
      stopNever 0 1000 2).1,
   (run_resultdb_unique_and_scheduled ctxOneWorker schedEverythingCompletes
      stopNever 0 1000 2).2 0 (by decide)⟩

/-- C2 counterexample: with `max_workers = 1` and nothing completing, a
single loop iteration schedules `max_workers + 1 = 2` trials, so the Run
loop holds 2 > 1 outstanding evaluations: the claimed bound `max_workers`
is exceeded. -/
theorem run_exceeds_max_workers_cex :
    ctxOneWorker.maxWorkers = 1 ∧
    (Run.runLoop ctxOneWorker schedNothingEverCompletes stopNever 0 1000 1).futures.length = 2 := by
  decide

/-- One loop iteration keeps the number of in-flight evaluations at or
below `max_workers + 1`. -/
theorem Run.loopStep_futures_le (ctx : RunContext) (sched : LoopSched)
    (stop : Stopper) (s : LoopState)
    (h : s.futures.length ≤ ctx.maxWorkers + 1) :
    (Run.loopStep ctx sched stop s).futures.length ≤ ctx.maxWorkers + 1 := by
  unfold Run.loopStep
  split
  · exact h
  · show (waitRunning sched s ++
      (List.range (nNewTrials ctx (waitRunning sched s).length)).map
        (fun i => s.nextTid + i)).length ≤ ctx.maxWorkers + 1
    have hr : (waitRunning sched s).length ≤ s.futures.length :=
      List.length_filter_le _ _
    simp only [List.length_append, List.length_map, List.length_range,
      nNewTrials, Nat.zero_max]
    omega

/-- Every state observed at the loop condition keeps the in-flight count
at or below `max_workers + 1`. -/
theorem Run.loopTrace_futures_le (ctx : RunContext) (sched : LoopSched)
    (stop : Stopper) (endT : Int) (fuel : Nat) (s : LoopState)
    (h : s.futures.length ≤ ctx.maxWorkers + 1) :
    ∀ s2 ∈ Run.loopTrace ctx sched stop endT fuel s,
      s2.futures.length ≤ ctx.maxWorkers + 1 := by
  induction fuel generalizing s with
  | zero =>
    intro s2 hs2
    rw [Run.loopTrace] at hs2
    rcases List.mem_singleton.mp hs2 with rfl
    exact h
  | succ fuel ih =>
    intro s2 hs2
    rw [Run.loopTrace] at hs2
    split at hs2
    · rcases List.mem_cons.mp hs2 with rfl | hs2
      · exact h
      · exact ih (Run.loopStep ctx sched stop s)
          (Run.loopStep_futures_le ctx sched stop s h) s2 hs2
    · rcases List.mem_singleton.mp hs2 with rfl
      exact h

/-- C2 (amended): for every schedule of completion times, the number of
concurrently outstanding evaluations held by the Run loop never exceeds
`max_workers + 1` at any loop observation point (the deliberate
"+1" overcommit of line 135 makes `max_workers` itself unattainable as a
bound — see the counterexample). -/
theorem run_futures_bounded_by_overcommit (ctx : RunContext) (sched : LoopSched)
    (stop : Stopper) (start duration : Int) (fuel : Nat) :
    ∀ s ∈ Run.runTrace ctx sched stop start duration fuel,
      s.futures.length ≤ ctx.maxWorkers + 1 :=
  Run.loopTrace_futures_le ctx sched stop
    (start + duration - ctx.shutdownDuration) fuel (Run.initState start)
    (by simp [Run.initState])

/-- Witness for C2 (amended) at a concrete trace state. -/
theorem run_futures_bounded_by_overcommit_witness :
    (Run.initState 0).futures.length ≤ ctxOneWorker.maxWorkers + 1 :=
  run_futures_bounded_by_overcommit ctxOneWorker schedNothingEverCompletes
    stopNever 0 1000 1 (Run.initState 0) (by decide)

/-- C3: in every loop iteration in which the stop condition has not fired
after the wait, the body harvests exactly the completed futures into the
database and schedules exactly `max(0, max_workers + 1 - currently_running)`
new suggestions, where `currently_running` is the number of futures still
outstanding after the wait. -/
theorem run_topup_schedules_exactly (ctx : RunContext) (sched : LoopSched)
    (stop : Stopper) (s : LoopState)
    (h : stop.done s.db (s.time + sched.dt s.iter) = false) :
    (Run.loopStep ctx sched stop s).nextTid =
      s.nextTid + max 0 (ctx.maxWorkers + 1 - (waitRunning sched s).length) ∧
    (Run.loopStep ctx sched stop s).futures =
      waitRunning sched s ++
        (List.range (max 0 (ctx.maxWorkers + 1 - (waitRunning sched s).length))).map
          (fun i => s.nextTid + i) ∧
    (Run.loopStep ctx sched stop s).db =
      s.db ++ (waitDone sched s).map (fun tid => (tid, sched.result tid)) := by
  unfold Run.loopStep
  rw [if_neg (by simp [h])]
  exact ⟨rfl, rfl, rfl⟩

/-- Witness for C3: one worker, one trial still running after the wait,
so exactly `max(0, 1 + 1 - 1) = 1` new suggestion is scheduled. -/
theorem run_topup_schedules_exactly_witness :
    (Run.loopStep ctxOneWorker schedNothingEverCompletes stopNever
      ⟨[5], [], 6, 0, 0⟩).nextTid =
      6 + max 0 (ctxOneWorker.maxWorkers + 1 -
        (waitRunning schedNothingEverCompletes ⟨[5], [], 6, 0, 0⟩).length) ∧
    (Run.loopStep ctxOneWorker schedNothingEverCompletes stopNever
      ⟨[5], [], 6, 0, 0⟩).futures =
      waitRunning schedNothingEverCompletes ⟨[5], [], 6, 0, 0⟩ ++
        (List.range (max 0 (ctxOneWorker.maxWorkers + 1 -
          (waitRunning schedNothingEverCompletes ⟨[5], [], 6, 0, 0⟩).length))).map
          (fun i => 6 + i) ∧
    (Run.loopStep ctxOneWorker schedNothingEverCompletes stopNever
      ⟨[5], [], 6, 0, 0⟩).db =
      [] ++ (waitDone schedNothingEverCompletes ⟨[5], [], 6, 0, 0⟩).map
        (fun tid => (tid, schedNothingEverCompletes.result tid)) :=
  run_topup_schedules_exactly ctxOneWorker schedNothingEverCompletes stopNever
    ⟨[5], [], 6, 0, 0⟩ (by decide)

/-- C4: `run(duration)` fixes the deadline `start + duration -
shutdown_duration` at entry; the loop body is never entered (the loop
returns its state unchanged, for any fuel) once the clock has reached that
deadline or the stopper reports done on the current state; and in an
iteration in which the stop condition fired during the wait, the
harvesting/scheduling step is skipped: database, futures and the
suggestion counter are all left untouched. -/
theorem run_deadline_guard_and_skip (ctx : RunContext) (sched : LoopSched)
    (stop : Stopper) (start duration : Int) (fuel : Nat) (s : LoopState) :
    Run.runLoop ctx sched stop start duration fuel =
      Run.loop ctx sched stop (start + duration - ctx.shutdownDuration) fuel
        (Run.initState start) ∧
    (¬(s.time < start + duration - ctx.shutdownDuration ∧
        stop.done s.db s.time = false) →
      ∀ fuel2 : Nat, Run.loop ctx sched stop
        (start + duration - ctx.shutdownDuration) fuel2 s = s) ∧
    (stop.done s.db (s.time + sched.dt s.iter) = true →
      (Run.loopStep ctx sched stop s).db = s.db ∧
      (Run.loopStep ctx sched stop s).futures = s.futures ∧
      (Run.loopStep ctx sched stop s).nextTid = s.nextTid) := by
  refine ⟨rfl, ?_, ?_⟩
  · intro hguard fuel2
    cases fuel2 with
    | zero => rfl
    | succ fuel2 => rw [Run.loop, if_neg hguard]
  · intro hstop
    unfold Run.loopStep
    rw [if_pos hstop]
    exact ⟨rfl, rfl, rfl⟩

/-- Witness for C4 at a state whose clock is 5, where the time-2 stopper
has fired. -/
theorem run_deadline_guard_and_skip_witness :
    Run.runLoop ctxOneWorker schedEverythingCompletes stopAtTime2 0 1000 3 =
      Run.loop ctxOneWorker schedEverythingCompletes stopAtTime2
        (0 + 1000 - ctxOneWorker.shutdownDuration) 3 (Run.initState 0) ∧
    (∀ fuel2 : Nat, Run.loop ctxOneWorker schedEverythingCompletes stopAtTime2
        (0 + 1000 - ctxOneWorker.shutdownDuration) fuel2 ⟨[], [], 0, 5, 0⟩ =
      ⟨[], [], 0, 5, 0⟩) ∧
    ((Run.loopStep ctxOneWorker schedEverythingCompletes stopAtTime2
        ⟨[], [], 0, 5, 0⟩).db = [] ∧
     (Run.loopStep ctxOneWorker schedEverythingCompletes stopAtTime2
        ⟨[], [], 0, 5, 0⟩).futures = [] ∧
     (Run.loopStep ctxOneWorker schedEverythingCompletes stopAtTime2
        ⟨[], [], 0, 5, 0⟩).nextTid = 0) := by
  have h := run_deadline_guard_and_skip ctxOneWorker schedEverythingCompletes
    stopAtTime2 0 1000 3 ⟨[], [], 0, 5, 0⟩
  exact ⟨h.1, h.2.1 (by decide), h.2.2 (by decide)⟩
